import Mathlib

/-!
Shallow embedding of the reconciliation and batching pipeline of
seller.py (Ozon adapter) and market.py (Yandex Market adapter).

Inventory rows carry their fields as the strings the Python code
compares and parses; network responses and the wall-clock timestamp
read by market.create_stocks are passed as explicit arguments; Python
exceptions (int() on a non-numeric string, range() with step 0) are
modelled as Option-valued results.
-/

set_option autoImplicit false

/-- Models Python int() on a string as it is used by the pipeline:
optional surrounding spaces, an optional single sign, then one or more
ASCII digits; anything else raises, modelled as none. -/
def digitsVal (cs : List Char) : Nat :=
  cs.foldl (fun acc c => 10 * acc + (c.toNat - 48)) 0

/-- Parses a nonempty all-digit character list, the digits case of int(). -/
def parseDigits (cs : List Char) : Option Nat :=
  if cs ≠ [] ∧ cs.all Char.isDigit then some (digitsVal cs) else none

/-- Models Python int(s) for the strings this pipeline feeds it. -/
def parsePyInt (s : String) : Option Int :=
  let cs := ((s.data.dropWhile (fun c => c == ' ')).reverse.dropWhile (fun c => c == ' ')).reverse
  match cs with
  | '-' :: rest => (parseDigits rest).map (fun n => -(n : Int))
  | '+' :: rest => (parseDigits rest).map (fun n => (n : Int))
  | _ => (parseDigits cs).map (fun n => (n : Int))

/-- The quantity-normalization branch shared verbatim by
seller.create_stocks (seller.py lines 184-190) and
market.create_stocks (market.py lines 170-176): the sentinel ">10"
becomes 100, the sentinel "1" becomes 0, anything else goes through
int(), whose failure (a raised ValueError) is none. -/
def normalizeCount (count : String) : Option Int :=
  if count = ">10" then some 100
  else if count = "1" then some 0
  else parsePyInt count

/-- seller.price_conversion: re.sub("[^0-9]", "", price.split(".")[0]) —
take the prefix of the string before the first literal dot and keep
only its ASCII digits. -/
def price_conversion (price : String) : String :=
  String.mk ((price.data.takeWhile (fun c => c != '.')).filter Char.isDigit)

/-- One row of the vendor spreadsheet, its three fields of interest held
as the strings the Python code obtains from them: kod is
str(watch.get("Код")), kolichestvo is str(watch.get("Количество")),
tsena is the price cell fed to price_conversion. -/
structure WatchRecord where
  kod : String
  kolichestvo : String
  tsena : String
deriving DecidableEq

/-- A stock-update record of seller.create_stocks:
{"offer_id": ..., "stock": ...}. -/
structure StockItem where
  offer_id : String
  stock : Int
deriving DecidableEq

/-- Models Python list.remove(x): drop the first occurrence of x.
The pipeline only calls it when x is present (list.remove raises
otherwise); on a list without x this model returns the list unchanged. -/
def pyRemove : List String → String → List String
  | [], _ => []
  | a :: rest, x => if a = x then rest else a :: pyRemove rest x

/-- The first loop of seller.create_stocks (seller.py lines 182-192),
with the mutable stocks list as the accumulator and the mutated
offer_ids list threaded through; returns the stocks built so far and
the offer ids left after the removals, or none when int() raises. -/
def sellerStocksLoop : List WatchRecord → List String → List StockItem →
    Option (List StockItem × List String)
  | [], offerIds, acc => some (acc, offerIds)
  | w :: ws, offerIds, acc =>
    if w.kod ∈ offerIds then
      match normalizeCount w.kolichestvo with
      | none => none
      | some stock =>
        sellerStocksLoop ws (pyRemove offerIds w.kod) (acc ++ [⟨w.kod, stock⟩])
    else sellerStocksLoop ws offerIds acc

/-- seller.create_stocks (seller.py lines 165-196): the matched-record
loop followed by a zero-stock record for every remaining offer id.
The second component is the final state of the caller-supplied
offer_ids list, which the Python function mutates in place. -/
def seller_create_stocks (watchRemnants : List WatchRecord) (offerIds : List String) :
    Option (List StockItem × List String) :=
  (sellerStocksLoop watchRemnants offerIds []).map
    (fun r => (r.1 ++ r.2.map (fun oid => ⟨oid, 0⟩), r.2))

/-- One element of the items list of a market stock record:
{"count": ..., "type": "FIT", "updatedAt": ...}. -/
structure MarketStockEntry where
  count : Int
  type : String
  updatedAt : String
deriving DecidableEq

/-- A stock-update record of market.create_stocks:
{"sku": ..., "warehouseId": ..., "items": [...]}. -/
structure MarketStockItem where
  sku : String
  warehouseId : String
  items : List MarketStockEntry
deriving DecidableEq

/-- The first loop of market.create_stocks (market.py lines 168-190);
date is the string market.create_stocks computes once from
datetime.datetime.utcnow() before the loop. -/
def marketStocksLoop (warehouseId date : String) :
    List WatchRecord → List String → List MarketStockItem →
    Option (List MarketStockItem × List String)
  | [], offerIds, acc => some (acc, offerIds)
  | w :: ws, offerIds, acc =>
    if w.kod ∈ offerIds then
      match normalizeCount w.kolichestvo with
      | none => none
      | some stock =>
        marketStocksLoop warehouseId date ws (pyRemove offerIds w.kod)
          (acc ++ [⟨w.kod, warehouseId, [⟨stock, "FIT", date⟩]⟩])
    else marketStocksLoop warehouseId date ws offerIds acc

/-- market.create_stocks (market.py lines 148-206), with the utcnow
timestamp as the explicit argument date; as for the seller adapter the
second component is the final state of the mutated offer_ids list. -/
def market_create_stocks (watchRemnants : List WatchRecord) (offerIds : List String)
    (warehouseId date : String) : Option (List MarketStockItem × List String) :=
  (marketStocksLoop warehouseId date watchRemnants offerIds []).map
    (fun r => (r.1 ++ r.2.map (fun oid => ⟨oid, warehouseId, [⟨0, "FIT", date⟩]⟩), r.2))

/-- Both matching loops stripped to their shared id bookkeeping and
quantity normalization: the matched (code, stock) pairs in inventory
order together with the offer ids left after the removals. -/
def stocksSpec : List WatchRecord → List String → Option (List StockItem × List String)
  | [], offerIds => some ([], offerIds)
  | w :: ws, offerIds =>
    if w.kod ∈ offerIds then
      match normalizeCount w.kolichestvo with
      | none => none
      | some stock =>
        (stocksSpec ws (pyRemove offerIds w.kod)).map (fun r => (⟨w.kod, stock⟩ :: r.1, r.2))
    else stocksSpec ws offerIds

/-- The product codes that the matching loop of create_stocks matches
(and removes from offer_ids), in inventory order. -/
def matchedCodes : List WatchRecord → List String → List String
  | [], _ => []
  | w :: ws, offerIds =>
    if w.kod ∈ offerIds then w.kod :: matchedCodes ws (pyRemove offerIds w.kod)
    else matchedCodes ws offerIds

/-- The offer ids still in the mutated offer_ids list after the matching
loop of create_stocks. -/
def remainingIds : List WatchRecord → List String → List String
  | [], offerIds => offerIds
  | w :: ws, offerIds =>
    if w.kod ∈ offerIds then remainingIds ws (pyRemove offerIds w.kod)
    else remainingIds ws offerIds

/-- A price-update record of seller.create_prices. -/
structure PriceItem where
  auto_action_enabled : String
  currency_code : String
  offer_id : String
  old_price : String
  price : String
deriving DecidableEq

/-- The record seller.create_prices builds for a matched inventory row
(seller.py lines 223-229). -/
def mkSellerPrice (w : WatchRecord) : PriceItem :=
  ⟨"UNKNOWN", "RUB", w.kod, "0", price_conversion w.tsena⟩

/-- The loop of seller.create_prices (seller.py lines 220-230), with the
offer_ids list threaded through unchanged: the loop body never mutates
it. -/
def sellerPricesLoop : List WatchRecord → List String → List PriceItem →
    List PriceItem × List String
  | [], offerIds, acc => (acc, offerIds)
  | w :: ws, offerIds, acc =>
    if w.kod ∈ offerIds then sellerPricesLoop ws offerIds (acc ++ [mkSellerPrice w])
    else sellerPricesLoop ws offerIds acc

/-- seller.create_prices (seller.py lines 199-231); the second component
is the final (unchanged) state of the offer_ids argument. -/
def seller_create_prices (watchRemnants : List WatchRecord) (offerIds : List String) :
    List PriceItem × List String :=
  sellerPricesLoop watchRemnants offerIds []

/-- The nested price object of a market price-update record:
{"value": ..., "currencyId": "RUR"}. -/
structure MarketPriceValue where
  value : Int
  currencyId : String
deriving DecidableEq

/-- A price-update record of market.create_prices:
{"id": ..., "price": {...}}. -/
structure MarketPriceItem where
  id : String
  price : MarketPriceValue
deriving DecidableEq

/-- The record market.create_prices builds for a matched inventory row
(market.py lines 227-238), its value the successful int() result. -/
def mkMarketPrice (w : WatchRecord) : MarketPriceItem :=
  ⟨w.kod, ⟨(parsePyInt (price_conversion w.tsena)).getD 0, "RUR"⟩⟩

/-- The loop of market.create_prices (market.py lines 225-239); none
models the ValueError of int() on a digit-free converted price, and the
offer_ids list is threaded through unchanged. -/
def marketPricesLoop : List WatchRecord → List String → List MarketPriceItem →
    Option (List MarketPriceItem × List String)
  | [], offerIds, acc => some (acc, offerIds)
  | w :: ws, offerIds, acc =>
    if w.kod ∈ offerIds then
      match parsePyInt (price_conversion w.tsena) with
      | none => none
      | some v => marketPricesLoop ws offerIds (acc ++ [⟨w.kod, ⟨v, "RUR"⟩⟩])
    else marketPricesLoop ws offerIds acc

/-- market.create_prices (market.py lines 209-240). -/
def market_create_prices (watchRemnants : List WatchRecord) (offerIds : List String) :
    Option (List MarketPriceItem × List String) :=
  marketPricesLoop watchRemnants offerIds []

/-- seller.upload_stocks (seller.py lines 299-321) after its
get_offer_ids call, whose result is the offerIds argument; the chunked
update_stocks network calls discard their responses and do not affect
the returned pair (not_empty, stocks). -/
def seller_upload_stocks (watchRemnants : List WatchRecord) (offerIds : List String) :
    Option (List StockItem × List StockItem) :=
  (seller_create_stocks watchRemnants offerIds).map
    (fun r => (r.1.filter (fun s => decide (s.stock ≠ 0)), r.1))

/-- market.upload_stocks reads stock.get("items")[0].get("count"); the
records create_stocks builds always carry exactly one items entry, so
index 0 is their head. -/
def marketStockCount (s : MarketStockItem) : Int :=
  (s.items.headD ⟨0, "", ""⟩).count

/-- market.upload_stocks (market.py lines 266-293) after its
get_offer_ids call, the utcnow timestamp again explicit. -/
def market_upload_stocks (watchRemnants : List WatchRecord) (offerIds : List String)
    (warehouseId date : String) : Option (List MarketStockItem × List MarketStockItem) :=
  (market_create_stocks watchRemnants offerIds warehouseId date).map
    (fun r => (r.1.filter (fun s => decide (marketStockCount s ≠ 0)), r.1))

/-- One product object of a page of the Ozon product listing; only its
offer_id field is read. -/
structure SellerProduct where
  offer_id : String
deriving DecidableEq

/-- One page of the Ozon product listing: the items, the reported total
and the continuation token last_id. -/
structure SellerPage where
  items : List SellerProduct
  total : Nat
  last_id : String
deriving DecidableEq

/-- The while-loop of seller.get_offer_ids (seller.py lines 67-73).
The platform is modelled as the sequence of pages it returns to the
successive requests (request number ↦ page); the loop is given fuel
because the source loop need not terminate. -/
def sellerPagesLoop (platform : Nat → SellerPage) :
    Nat → Nat → List SellerProduct → Option (List SellerProduct)
  | 0, _, _ => none
  | fuel + 1, i, acc =>
    let acc2 := acc ++ (platform i).items
    if (platform i).total = acc2.length then some acc2
    else sellerPagesLoop platform fuel (i + 1) acc2

/-- seller.get_offer_ids (seller.py lines 48-77): run the pagination
loop, then extract offer_id from every collected product. -/
def seller_get_offer_ids (platform : Nat → SellerPage) (fuel : Nat) : Option (List String) :=
  (sellerPagesLoop platform fuel 0 []).map (fun products => products.map SellerProduct.offer_id)

/-- The items of the first k pages of the Ozon listing, concatenated. -/
def sellerSeen (platform : Nat → SellerPage) (k : Nat) : List SellerProduct :=
  ((List.range k).map (fun i => (platform i).items)).flatten

/-- The termination test of seller.get_offer_ids after processing page
i: the page's reported total equals the cumulative item count. -/
def sellerStops (platform : Nat → SellerPage) (i : Nat) : Prop :=
  (platform i).total = (sellerSeen platform (i + 1)).length

/-- One offer-mapping entry of a page of the Yandex Market listing; only
its offer.shopSku field is read. -/
structure MarketEntry where
  shopSku : String
deriving DecidableEq

/-- One page of the Yandex Market listing; an absent nextPageToken is
modelled as the empty string, the other falsy token value. -/
structure MarketPage where
  offerMappingEntries : List MarketEntry
  nextPageToken : String
deriving DecidableEq

/-- The while-loop of market.get_offer_ids (market.py lines 136-141),
modelled like the seller loop. -/
def marketPagesLoop (platform : Nat → MarketPage) :
    Nat → Nat → List MarketEntry → Option (List MarketEntry)
  | 0, _, _ => none
  | fuel + 1, i, acc =>
    let acc2 := acc ++ (platform i).offerMappingEntries
    if (platform i).nextPageToken = "" then some acc2
    else marketPagesLoop platform fuel (i + 1) acc2

/-- market.get_offer_ids (market.py lines 117-145). -/
def market_get_offer_ids (platform : Nat → MarketPage) (fuel : Nat) : Option (List String) :=
  (marketPagesLoop platform fuel 0 []).map (fun entries => entries.map MarketEntry.shopSku)

/-- The entries of the first k pages of the Market listing, concatenated. -/
def marketSeen (platform : Nat → MarketPage) (k : Nat) : List MarketEntry :=
  ((List.range k).map (fun i => (platform i).offerMappingEntries)).flatten

/-- The termination test of market.get_offer_ids after processing page
i: the page's continuation token is falsy. -/
def marketStops (platform : Nat → MarketPage) (i : Nat) : Prop :=
  (platform i).nextPageToken = ""

/-- The elements of Python range(start, stop, step), step ≠ 0: k
equally spaced values from start. -/
def rangeStep (start step : Int) : Nat → List Int
  | 0 => []
  | k + 1 => start :: rangeStep (start + step) step k

/-- The number of elements of Python range(start, stop, step) for
step ≠ 0, computed in Nat to keep ceiling division elementary. -/
def pyRangeLen (start stop step : Int) : Nat :=
  if 0 < step then ((stop - start).toNat + step.toNat - 1) / step.toNat
  else ((start - stop).toNat + (-step).toNat - 1) / (-step).toNat

/-- Models Python range(start, stop, step): none is the ValueError on
step 0 (raised when the generator holding it is first advanced). -/
def pyRange (start stop step : Int) : Option (List Int) :=
  if step = 0 then none else some (rangeStep start step (pyRangeLen start stop step))

/-- Models the Python slice lst[i:j] for 0 ≤ i ≤ j, the only shape
divide evaluates (its indices are i and i + n with n ≥ 1, and for
n < 0 no slice is taken at all). -/
def pySlice {α : Type} (lst : List α) (i j : Int) : List α :=
  (lst.drop i.toNat).take (j - i).toNat

/-- seller.divide (seller.py lines 251-267): the list of slices
lst[i:i+n] for i in range(0, len(lst), n), fully forced (every caller
wraps the generator in list(...)). -/
def divide {α : Type} (lst : List α) (n : Int) : Option (List (List α)) :=
  (pyRange 0 (lst.length : Int) n).map (fun idxs => idxs.map (fun i => pySlice lst i (i + n)))

/-- Chunks of size m + 1 by plain recursion, the auxiliary shape the
divide proofs reduce the range-and-slice formulation to. -/
def chunksRec {α : Type} (m : Nat) : List α → List (List α)
  | [] => []
  | a :: rest => (a :: rest.take m) :: chunksRec m (rest.drop m)
termination_by l => l.length
decreasing_by simp [List.length_drop]; omega

/-! ### Bookkeeping lemmas for the matching loops -/

theorem pyRemove_sublist (l : List String) (x : String) : (pyRemove l x).Sublist l := by
  induction l with
  | nil => simp [pyRemove]
  | cons a rest ih =>
    by_cases h : a = x
    · simp only [pyRemove, if_pos h]
      exact List.sublist_cons_self a rest
    · simp only [pyRemove, if_neg h]
      exact ih.cons₂ a

theorem pyRemove_perm {x : String} : ∀ {l : List String}, x ∈ l → l.Perm (x :: pyRemove l x) := by
  intro l
  induction l with
  | nil => intro h; cases h
  | cons a rest ih =>
    intro h
    by_cases hax : a = x
    · subst hax; simp [pyRemove]
    · have hx : x ∈ rest := by
        rcases List.mem_cons.mp h with h1 | h1
        · exact absurd h1.symm hax
        · exact h1
      simp only [pyRemove, if_neg hax]
      exact ((ih hx).cons a).trans (List.Perm.swap x a (pyRemove rest x))

theorem sellerStocksLoop_eq (ws : List WatchRecord) :
    ∀ (o : List String) (acc : List StockItem),
      sellerStocksLoop ws o acc = (stocksSpec ws o).map (fun r => (acc ++ r.1, r.2)) := by
  induction ws with
  | nil => intro o acc; simp [sellerStocksLoop, stocksSpec]
  | cons w ws ih =>
    intro o acc
    by_cases hm : w.kod ∈ o
    · cases hnc : normalizeCount w.kolichestvo with
      | none => simp [sellerStocksLoop, stocksSpec, hm, hnc]
      | some c =>
        simp only [sellerStocksLoop, stocksSpec, hm, if_true, hnc]
        rw [ih]
        cases hs : stocksSpec ws (pyRemove o w.kod) with
        | none => rfl
        | some r => simp
    · simp [sellerStocksLoop, stocksSpec, hm, ih]

theorem marketStocksLoop_eq (wid date : String) (ws : List WatchRecord) :
    ∀ (o : List String) (acc : List MarketStockItem),
      marketStocksLoop wid date ws o acc =
        (stocksSpec ws o).map
          (fun r => (acc ++ r.1.map
            (fun s => (⟨s.offer_id, wid, [⟨s.stock, "FIT", date⟩]⟩ : MarketStockItem)), r.2)) := by
  induction ws with
  | nil => intro o acc; simp [marketStocksLoop, stocksSpec]
  | cons w ws ih =>
    intro o acc
    by_cases hm : w.kod ∈ o
    · cases hnc : normalizeCount w.kolichestvo with
      | none => simp [marketStocksLoop, stocksSpec, hm, hnc]
      | some c =>
        simp only [marketStocksLoop, stocksSpec, hm, if_true, hnc]
        rw [ih]
        cases hs : stocksSpec ws (pyRemove o w.kod) with
        | none => rfl
        | some r => simp
    · simp [marketStocksLoop, stocksSpec, hm, ih]

theorem stocksSpec_ids (ws : List WatchRecord) :
    ∀ (o : List String) (r : List StockItem × List String), stocksSpec ws o = some r →
      r.1.map StockItem.offer_id = matchedCodes ws o ∧ r.2 = remainingIds ws o := by
  induction ws with
  | nil =>
    intro o r h
    simp only [stocksSpec, Option.some.injEq] at h
    subst h
    simp [matchedCodes, remainingIds]
  | cons w ws ih =>
    intro o r h
    by_cases hm : w.kod ∈ o
    · cases hnc : normalizeCount w.kolichestvo with
      | none => simp [stocksSpec, hm, hnc] at h
      | some c =>
        simp only [stocksSpec, hm, if_true, hnc] at h
        obtain ⟨r0, hr0, hf⟩ := Option.map_eq_some'.mp h
        obtain ⟨h1, h2⟩ := ih _ _ hr0
        subst hf
        simp [matchedCodes, remainingIds, hm, h1, h2]
    · simp only [stocksSpec, hm, if_false] at h
      have := ih _ _ h
      simp [matchedCodes, remainingIds, hm, this.1, this.2]

theorem matched_remaining_perm (ws : List WatchRecord) :
    ∀ o : List String, (matchedCodes ws o ++ remainingIds ws o).Perm o := by
  induction ws with
  | nil => intro o; simp [matchedCodes, remainingIds]
  | cons w ws ih =>
    intro o
    by_cases hm : w.kod ∈ o
    · simp only [matchedCodes, remainingIds, hm, if_true, List.cons_append]
      exact ((ih (pyRemove o w.kod)).cons w.kod).trans (pyRemove_perm hm).symm
    · simp only [matchedCodes, remainingIds, hm, if_false]
      exact ih o

theorem remaining_sublist (ws : List WatchRecord) :
    ∀ o : List String, (remainingIds ws o).Sublist o := by
  induction ws with
  | nil => intro o; simp [remainingIds]
  | cons w ws ih =>
    intro o
    by_cases hm : w.kod ∈ o
    · simp only [remainingIds, hm, if_true]
      exact (ih _).trans (pyRemove_sublist o w.kod)
    · simp only [remainingIds, hm, if_false]
      exact ih o

theorem mem_remaining_iff {ws : List WatchRecord} {o : List String} (hnd : o.Nodup) (x : String) :
    x ∈ remainingIds ws o ↔ x ∈ o ∧ x ∉ matchedCodes ws o := by
  have hperm := matched_remaining_perm ws o
  have hnd2 : (matchedCodes ws o ++ remainingIds ws o).Nodup := hperm.nodup_iff.mpr hnd
  rw [List.nodup_append] at hnd2
  obtain ⟨-, -, hdisj⟩ := hnd2
  constructor
  · intro hx
    exact ⟨hperm.mem_iff.mp (List.mem_append_right _ hx), fun hmem => hdisj hmem hx⟩
  · rintro ⟨hxo, hxm⟩
    rcases List.mem_append.mp (hperm.mem_iff.mpr hxo) with h | h
    · exact absurd h hxm
    · exact h

theorem seller_create_stocks_eq (w : List WatchRecord) (o : List String) :
    seller_create_stocks w o =
      (stocksSpec w o).map (fun r => (r.1 ++ r.2.map (fun oid => ⟨oid, 0⟩), r.2)) := by
  unfold seller_create_stocks
  rw [sellerStocksLoop_eq]
  cases stocksSpec w o <;> simp

theorem market_create_stocks_eq (w : List WatchRecord) (o : List String) (wid date : String) :
    market_create_stocks w o wid date =
      (stocksSpec w o).map
        (fun r => (r.1.map (fun s => (⟨s.offer_id, wid, [⟨s.stock, "FIT", date⟩]⟩ : MarketStockItem))
          ++ r.2.map (fun oid => (⟨oid, wid, [⟨0, "FIT", date⟩]⟩ : MarketStockItem)), r.2)) := by
  unfold market_create_stocks
  rw [marketStocksLoop_eq]
  cases stocksSpec w o <;> simp

/-! ### Lemmas for the price loops and the market timestamp -/

theorem sellerPricesLoop_snd (ws : List WatchRecord) :
    ∀ (o : List String) (acc : List PriceItem), (sellerPricesLoop ws o acc).2 = o := by
  induction ws with
  | nil => intro o acc; simp [sellerPricesLoop]
  | cons w ws ih =>
    intro o acc
    by_cases hm : w.kod ∈ o <;> simp [sellerPricesLoop, hm, ih]

theorem sellerPricesLoop_fst (ws : List WatchRecord) :
    ∀ (o : List String) (acc : List PriceItem),
      (sellerPricesLoop ws o acc).1 =
        acc ++ (ws.filter (fun r => decide (r.kod ∈ o))).map mkSellerPrice := by
  induction ws with
  | nil => intro o acc; simp [sellerPricesLoop]
  | cons w ws ih =>
    intro o acc
    by_cases hm : w.kod ∈ o <;>
      simp [sellerPricesLoop, List.filter_cons, hm, ih]

theorem marketPricesLoop_eq (ws : List WatchRecord) :
    ∀ (o : List String) (acc : List MarketPriceItem),
      (∀ r ∈ ws, r.kod ∈ o → parsePyInt (price_conversion r.tsena) ≠ none) →
      marketPricesLoop ws o acc =
        some (acc ++ (ws.filter (fun r => decide (r.kod ∈ o))).map mkMarketPrice, o) := by
  induction ws with
  | nil => intro o acc _; simp [marketPricesLoop]
  | cons w ws ih =>
    intro o acc hok
    by_cases hm : w.kod ∈ o
    · have hne := hok w (List.mem_cons_self w ws) hm
      cases hp : parsePyInt (price_conversion w.tsena) with
      | none => exact absurd hp hne
      | some v =>
        simp only [marketPricesLoop, hm, if_true, hp]
        rw [ih _ _ (fun r hr => hok r (List.mem_cons_of_mem _ hr))]
        simp [List.filter_cons, hm, mkMarketPrice, hp]
    · simp only [marketPricesLoop, hm, if_false]
      rw [ih _ _ (fun r hr => hok r (List.mem_cons_of_mem _ hr))]
      simp [List.filter_cons, hm]

theorem market_stock_items_date (w : List WatchRecord) (o : List String) (wid date : String)
    (r : List MarketStockItem × List String) (h : market_create_stocks w o wid date = some r) :
    ∀ s ∈ r.1, s.items.map MarketStockEntry.updatedAt = [date] := by
  rw [market_create_stocks_eq] at h
  obtain ⟨r0, hr0, hf⟩ := Option.map_eq_some'.mp h
  subst hf
  intro s hs
  rcases List.mem_append.mp hs with h1 | h1 <;>
    · obtain ⟨x, hx, rfl⟩ := List.mem_map.mp h1
      rfl

/-! ### Claims about stock reconciliation and its offer-id bookkeeping -/

/-- C1 (amended): for every inventory list and every duplicate-free
offer-id list, each create_stocks output (seller and market) lists
exactly the input offer ids, each exactly once — the output id sequence
is a permutation of the input with no duplicates — and it decomposes as
the matched codes (in inventory order) followed by the unmatched ids
(a sublist of the input, hence in original listing order). -/
theorem C1_create_stocks_offer_ids (w : List WatchRecord) (o : List String) (hnd : o.Nodup) :
    (∀ st rem, seller_create_stocks w o = some (st, rem) →
      (st.map StockItem.offer_id).Perm o ∧ (st.map StockItem.offer_id).Nodup ∧
      st.map StockItem.offer_id = matchedCodes w o ++ rem ∧ rem.Sublist o) ∧
    (∀ wid date st rem, market_create_stocks w o wid date = some (st, rem) →
      (st.map MarketStockItem.sku).Perm o ∧ (st.map MarketStockItem.sku).Nodup ∧
      st.map MarketStockItem.sku = matchedCodes w o ++ rem ∧ rem.Sublist o) := by
  have hperm := matched_remaining_perm w o
  have hnodup : (matchedCodes w o ++ remainingIds w o).Nodup := hperm.nodup_iff.mpr hnd
  constructor
  · intro st rem h
    rw [seller_create_stocks_eq] at h
    obtain ⟨r, hr, hf⟩ := Option.map_eq_some'.mp h
    obtain ⟨hids, hrem⟩ := stocksSpec_ids w o r hr
    obtain ⟨hst, hrem2⟩ := Prod.mk.injEq .. ▸ hf
    have hmap : st.map StockItem.offer_id = matchedCodes w o ++ rem := by
      rw [← hst, List.map_append, hids, List.map_map, ← hrem2]
      congr 1
      exact List.map_id r.2
    refine ⟨?_, ?_, hmap, ?_⟩
    · rw [hmap, ← hrem2, hrem]; exact hperm
    · rw [hmap, ← hrem2, hrem]; exact hnodup
    · rw [← hrem2, hrem]; exact remaining_sublist w o
  · intro wid date st rem h
    rw [market_create_stocks_eq] at h
    obtain ⟨r, hr, hf⟩ := Option.map_eq_some'.mp h
    obtain ⟨hids, hrem⟩ := stocksSpec_ids w o r hr
    obtain ⟨hst, hrem2⟩ := Prod.mk.injEq .. ▸ hf
    have hz : (r.2.map (fun oid => (⟨oid, wid, [⟨0, "FIT", date⟩]⟩ : MarketStockItem))).map
        MarketStockItem.sku = r.2 := by
      rw [List.map_map]
      exact List.map_id r.2
    have hc : (r.1.map (fun s =>
        (⟨s.offer_id, wid, [⟨s.stock, "FIT", date⟩]⟩ : MarketStockItem))).map
        MarketStockItem.sku = matchedCodes w o := by
      rw [List.map_map, ← hids]
      rfl
    have hmap : st.map MarketStockItem.sku = matchedCodes w o ++ rem := by
      rw [← hst, List.map_append, hc, hz, hrem2]
    refine ⟨?_, ?_, hmap, ?_⟩
    · rw [hmap, ← hrem2, hrem]; exact hperm
    · rw [hmap, ← hrem2, hrem]; exact hnodup
    · rw [← hrem2, hrem]; exact remaining_sublist w o

/-- C1 witness: a concrete run of the theorem, one matched and one
unmatched offer id. -/
theorem C1_create_stocks_offer_ids_witness :
    (([⟨"A", 5⟩, ⟨"B", 0⟩] : List StockItem).map StockItem.offer_id).Perm ["A", "B"] :=
  ((C1_create_stocks_offer_ids [⟨"A", "5", "9"⟩] ["A", "B"] (by decide)).1
    [⟨"A", 5⟩, ⟨"B", 0⟩] ["B"] (by decide)).1

/-- C1 counterexample: with the duplicated offer-id list ["A", "A"] and
an empty inventory, seller.create_stocks emits the id "A" twice, so the
unrestricted claim that every offer id appears exactly once is false. -/
theorem C1_create_stocks_offer_ids_counterexample :
    seller_create_stocks [] ["A", "A"] = some ([⟨"A", 0⟩, ⟨"A", 0⟩], ["A", "A"]) ∧
    ¬ (([⟨"A", 0⟩, ⟨"A", 0⟩] : List StockItem).map StockItem.offer_id).Nodup := by decide

/-- C2: quantity normalization maps the literal ">10" to 100, the
literal "1" to 0, any other string through int() — so a parseable
string to its integer value — and raises (returns none) on a
non-numeric non-sentinel string. -/
theorem C2_quantity_normalization :
    normalizeCount ">10" = some 100 ∧ normalizeCount "1" = some 0 ∧
    normalizeCount "42" = some 42 ∧
    (∀ s k, s ≠ ">10" → s ≠ "1" → parsePyInt s = some k → normalizeCount s = some k) ∧
    (∀ s, s ≠ ">10" → s ≠ "1" → parsePyInt s = none → normalizeCount s = none) := by
  refine ⟨by decide, by decide, by decide, ?_, ?_⟩
  · intro s k h1 h2 h3
    simpa [normalizeCount, h1, h2] using h3
  · intro s h1 h2 h3
    simpa [normalizeCount, h1, h2] using h3

/-- C2 witness: the non-sentinel branches of the theorem at concrete
strings. -/
theorem C2_quantity_normalization_witness :
    normalizeCount "7" = some 7 ∧ normalizeCount "abc" = none :=
  ⟨C2_quantity_normalization.2.2.2.1 "7" 7 (by decide) (by decide) (by decide),
   C2_quantity_normalization.2.2.2.2 "abc" (by decide) (by decide) (by decide)⟩

/-- C3 (amended): reconciliation on equal inputs is deterministic for
the seller adapter; the market adapter additionally depends on the
utcnow timestamp it reads — two calls observing the same timestamp
agree, and two calls observing different timestamps produce different
lists whenever the output is nonempty, because every record carries the
timestamp in its items. -/
theorem C3_reconciliation_determinism :
    (∀ (w : List WatchRecord) (o o' : List String), o = o' →
      seller_create_stocks w o = seller_create_stocks w o') ∧
    (∀ (w : List WatchRecord) (o : List String) (wid d d' : String), d = d' →
      market_create_stocks w o wid d = market_create_stocks w o wid d') ∧
    (∀ (w : List WatchRecord) (o : List String) (wid d d' : String)
        (r r' : List MarketStockItem × List String),
      market_create_stocks w o wid d = some r → market_create_stocks w o wid d' = some r' →
      r.1 ≠ [] → d ≠ d' → r.1 ≠ r'.1) := by
  refine ⟨fun w o o' h => by rw [h], fun w o wid d d' h => by rw [h], ?_⟩
  intro w o wid d d' r r' h h' hne hd heq
  obtain ⟨s, hs⟩ := List.exists_mem_of_ne_nil r.1 hne
  have h1 := market_stock_items_date w o wid d r h s hs
  have h2 := market_stock_items_date w o wid d' r' h' s (heq ▸ hs)
  rw [h1] at h2
  simp only [List.cons.injEq, and_true] at h2
  exact hd h2

/-- C3 witness: the different-timestamp conclusion of the theorem at a
concrete matched record. -/
theorem C3_reconciliation_determinism_witness :
    ([⟨"A", "W", [⟨5, "FIT", "T1"⟩]⟩] : List MarketStockItem) ≠
      [⟨"A", "W", [⟨5, "FIT", "T2"⟩]⟩] :=
  C3_reconciliation_determinism.2.2 [⟨"A", "5", "9"⟩] ["A"] "W" "T1" "T2"
    ([⟨"A", "W", [⟨5, "FIT", "T1"⟩]⟩], []) ([⟨"A", "W", [⟨5, "FIT", "T2"⟩]⟩], [])
    (by decide) (by decide) (by decide) (by decide)

/-- C3 counterexample: two market.create_stocks runs on identical
function arguments but different wall-clock timestamps return different
lists, so the claim that both reconcilers always yield identical output
on the same inputs is false for the market platform. -/
theorem C3_reconciliation_determinism_counterexample :
    market_create_stocks [⟨"A", "5", "9"⟩] ["A"] "W" "T1" ≠
      market_create_stocks [⟨"A", "5", "9"⟩] ["A"] "W" "T2" := by decide

/-- C9 (amended): for a duplicate-free offer-id list, after a
successful seller.create_stocks call the caller's list holds exactly
the ids that matched no inventory record; seller.create_prices leaves
its offer_ids argument unchanged; and create_prices run afterwards on
the shared list emits price records only for codes create_stocks did
not match. -/
theorem C9_offer_ids_mutation (w : List WatchRecord) (o : List String) (hnd : o.Nodup) :
    ∀ st rem, seller_create_stocks w o = some (st, rem) →
      (∀ x, x ∈ rem ↔ x ∈ o ∧ x ∉ matchedCodes w o) ∧
      (seller_create_prices w rem).2 = rem ∧
      (∀ p ∈ (seller_create_prices w rem).1,
        p.offer_id ∈ rem ∧ p.offer_id ∉ matchedCodes w o) := by
  intro st rem h
  rw [seller_create_stocks_eq] at h
  obtain ⟨r, hr, hf⟩ := Option.map_eq_some'.mp h
  obtain ⟨-, hrem2⟩ := Prod.mk.injEq .. ▸ hf
  have hrem : rem = remainingIds w o := by
    rw [← hrem2, (stocksSpec_ids w o r hr).2]
  refine ⟨?_, sellerPricesLoop_snd w rem [], ?_⟩
  · intro x
    rw [hrem]
    exact mem_remaining_iff hnd x
  · intro p hp
    rw [show (seller_create_prices w rem).1 = _ from sellerPricesLoop_fst w rem []] at hp
    simp only [List.nil_append] at hp
    obtain ⟨rcd, hrcd, rfl⟩ := List.mem_map.mp hp
    have hin : rcd.kod ∈ rem := of_decide_eq_true (List.mem_filter.mp hrcd).2
    have hnm : rcd.kod ∉ matchedCodes w o := by
      rw [hrem] at hin
      exact ((mem_remaining_iff hnd rcd.kod).mp hin).2
    exact ⟨hin, hnm⟩

/-- C9 witness: the membership characterization of the theorem at a
concrete unmatched id. -/
theorem C9_offer_ids_mutation_witness :
    "B" ∈ (["B"] : List String) ↔
      "B" ∈ (["A", "B"] : List String) ∧ "B" ∉ matchedCodes [⟨"A", "5", "9"⟩] ["A", "B"] :=
  ((C9_offer_ids_mutation [⟨"A", "5", "9"⟩] ["A", "B"] (by decide))
    [⟨"A", 5⟩, ⟨"B", 0⟩] ["B"] (by decide)).1 "B"

/-- C9 counterexample: with the duplicated offer-id list ["A", "A"] the
matched code "A" is still present afterwards, and create_prices run on
the shared list then emits a price record for the matched code "A" —
so the unrestricted claim is false. -/
theorem C9_offer_ids_mutation_counterexample :
    seller_create_stocks [⟨"A", "2", "1"⟩] ["A", "A"] = some ([⟨"A", 2⟩, ⟨"A", 0⟩], ["A"]) ∧
    matchedCodes [⟨"A", "2", "1"⟩] ["A", "A"] = ["A"] ∧
    (seller_create_prices [⟨"A", "2", "1"⟩] ["A"]).1 =
      [⟨"UNKNOWN", "RUB", "A", "0", "1"⟩] := by decide

/-! ### Claims about price transformation, price records and uploads -/

/-- The position of the first dot: takeWhile on the negated test is the
prefix str.split(".")[0] keeps, i.e. everything before the first
occurrence. -/
theorem takeWhile_ne_dot_eq_take_indexOf (l : List Char) :
    l.takeWhile (fun c => c != '.') = l.take (l.indexOf '.') := by
  induction l with
  | nil => rfl
  | cons c t ih =>
    by_cases h : c = '.'
    · subst h
      simp [List.takeWhile_cons, List.indexOf_cons]
    · simp [List.takeWhile_cons, List.indexOf_cons, h, bne_iff_ne, ih]

/-- C5: price_conversion truncates its input at the first literal dot
and keeps exactly the ASCII digits of that prefix; in particular
"5'990.00 руб." becomes "5990" and "199.99" becomes "199". -/
theorem C5_price_conversion :
    (∀ s : String, (price_conversion s).data =
      (s.data.take (s.data.indexOf '.')).filter Char.isDigit) ∧
    price_conversion "5'990.00 руб." = "5990" ∧ price_conversion "199.99" = "199" := by
  refine ⟨?_, by decide, by decide⟩
  intro s
  show ((s.data.takeWhile (fun c => c != '.')).filter Char.isDigit) = _
  rw [takeWhile_ne_dot_eq_take_indexOf]

/-- C7: create_prices emits one record per inventory record whose code
is in the offer-id list, in inventory order, carrying the converted
price, and none for unmatched offer ids — for the seller adapter
unconditionally, and for the market adapter whenever every matched
price parses (otherwise int() raises and no list is returned). -/
theorem C7_create_prices_matched_only (w : List WatchRecord) (o : List String) :
    (seller_create_prices w o).1 = (w.filter (fun r => decide (r.kod ∈ o))).map mkSellerPrice ∧
    (∀ p ∈ (seller_create_prices w o).1,
      p.offer_id ∈ o ∧ ∃ r ∈ w, r.kod = p.offer_id ∧ p.price = price_conversion r.tsena) ∧
    ((∀ r ∈ w, r.kod ∈ o → parsePyInt (price_conversion r.tsena) ≠ none) →
      market_create_prices w o =
        some ((w.filter (fun r => decide (r.kod ∈ o))).map mkMarketPrice, o)) := by
  have hfst : (seller_create_prices w o).1 =
      (w.filter (fun r => decide (r.kod ∈ o))).map mkSellerPrice := by
    rw [show (seller_create_prices w o).1 = _ from sellerPricesLoop_fst w o []]
    simp
  refine ⟨hfst, ?_, ?_⟩
  · intro p hp
    rw [hfst] at hp
    obtain ⟨rcd, hrcd, rfl⟩ := List.mem_map.mp hp
    have hrf := List.mem_filter.mp hrcd
    exact ⟨of_decide_eq_true hrf.2, rcd, hrf.1, rfl, rfl⟩
  · intro hok
    unfold market_create_prices
    rw [marketPricesLoop_eq w o [] hok]
    simp

/-- C7 witness: the market branch of the theorem at one matched record,
together with the seller characterization there. -/
theorem C7_create_prices_matched_only_witness :
    market_create_prices [⟨"A", "5", "10"⟩] ["A"] =
      some ([⟨"A", ⟨10, "RUR"⟩⟩], ["A"]) ∧
    (seller_create_prices [⟨"A", "5", "10"⟩] ["A"]).1 =
      [⟨"UNKNOWN", "RUB", "A", "0", "10"⟩] := by
  constructor
  · exact ((C7_create_prices_matched_only [⟨"A", "5", "10"⟩] ["A"]).2.2
      (by decide)).trans (by decide)
  · exact (C7_create_prices_matched_only [⟨"A", "5", "10"⟩] ["A"]).1.trans (by decide)

/-- C8: upload_stocks returns the pair (non-zero-stock sublist, full
reconciliation output) on both adapters; the first component is the
filter of the second, hence a sublist in the same relative order. -/
theorem C8_upload_stocks_pair :
    (∀ (w : List WatchRecord) (o : List String) (r : List StockItem × List StockItem),
      seller_upload_stocks w o = some r →
        (∃ rem, seller_create_stocks w o = some (r.2, rem)) ∧
        r.1 = r.2.filter (fun s => decide (s.stock ≠ 0)) ∧ r.1.Sublist r.2) ∧
    (∀ (w : List WatchRecord) (o : List String) (wid date : String)
        (r : List MarketStockItem × List MarketStockItem),
      market_upload_stocks w o wid date = some r →
        (∃ rem, market_create_stocks w o wid date = some (r.2, rem)) ∧
        r.1 = r.2.filter (fun s => decide (marketStockCount s ≠ 0)) ∧ r.1.Sublist r.2) := by
  constructor
  · intro w o r h
    unfold seller_upload_stocks at h
    obtain ⟨r0, hr0, hf⟩ := Option.map_eq_some'.mp h
    subst hf
    exact ⟨⟨r0.2, by simp [hr0]⟩, rfl, List.filter_sublist _⟩
  · intro w o wid date r h
    unfold market_upload_stocks at h
    obtain ⟨r0, hr0, hf⟩ := Option.map_eq_some'.mp h
    subst hf
    exact ⟨⟨r0.2, by simp [hr0]⟩, rfl, List.filter_sublist _⟩

/-- C8 witness: the seller branch of the theorem at a two-record run,
one record with stock 100 and one with stock 0. -/
theorem C8_upload_stocks_pair_witness :
    (∃ rem, seller_create_stocks [⟨"A", ">10", "x"⟩, ⟨"B", "1", "y"⟩] ["A", "B"] =
      some (([⟨"A", 100⟩, ⟨"B", 0⟩] : List StockItem), rem)) ∧
    ([⟨"A", 100⟩] : List StockItem) =
      [⟨"A", 100⟩, ⟨"B", 0⟩].filter (fun s => decide (s.stock ≠ 0)) ∧
    ([⟨"A", 100⟩] : List StockItem).Sublist [⟨"A", 100⟩, ⟨"B", 0⟩] :=
  C8_upload_stocks_pair.1 [⟨"A", ">10", "x"⟩, ⟨"B", "1", "y"⟩] ["A", "B"]
    ([⟨"A", 100⟩], [⟨"A", 100⟩, ⟨"B", 0⟩]) (by decide)

/-! ### Claims about paginated offer listing -/

theorem sellerSeen_succ (P : Nat → SellerPage) (k : Nat) :
    sellerSeen P (k + 1) = sellerSeen P k ++ (P k).items := by
  simp [sellerSeen, List.range_succ]

theorem marketSeen_succ (P : Nat → MarketPage) (k : Nat) :
    marketSeen P (k + 1) = marketSeen P k ++ (P k).offerMappingEntries := by
  simp [marketSeen, List.range_succ]

theorem sellerPagesLoop_run (P : Nat → SellerPage) (n : Nat)
    (hmin : ∀ i, i < n → ¬ sellerStops P i) (hn : sellerStops P n) :
    ∀ (fuel i : Nat) (acc : List SellerProduct), i ≤ n → acc = sellerSeen P i →
      n - i < fuel → sellerPagesLoop P fuel i acc = some (sellerSeen P (n + 1)) := by
  intro fuel
  induction fuel with
  | zero => intro i acc _ _ h; omega
  | succ f ih =>
    intro i acc hi hacc hf
    have hacc2 : acc ++ (P i).items = sellerSeen P (i + 1) := by
      rw [hacc, sellerSeen_succ]
    by_cases hin : i = n
    · subst hin
      have hcond : (P i).total = (acc ++ (P i).items).length := by
        rw [hacc2]; exact hn
      simp only [sellerPagesLoop, if_pos hcond]
      rw [hacc2]
    · have hlt : i < n := Nat.lt_of_le_of_ne hi hin
      have hcond : ¬ (P i).total = (acc ++ (P i).items).length := by
        rw [hacc2]; exact hmin i hlt
      simp only [sellerPagesLoop, if_neg hcond]
      exact ih (i + 1) _ hlt hacc2 (by omega)

theorem marketPagesLoop_run (P : Nat → MarketPage) (n : Nat)
    (hmin : ∀ i, i < n → ¬ marketStops P i) (hn : marketStops P n) :
    ∀ (fuel i : Nat) (acc : List MarketEntry), i ≤ n → acc = marketSeen P i →
      n - i < fuel → marketPagesLoop P fuel i acc = some (marketSeen P (n + 1)) := by
  intro fuel
  induction fuel with
  | zero => intro i acc _ _ h; omega
  | succ f ih =>
    intro i acc hi hacc hf
    have hacc2 : acc ++ (P i).offerMappingEntries = marketSeen P (i + 1) := by
      rw [hacc, marketSeen_succ]
    by_cases hin : i = n
    · subst hin
      have hcond : (P i).nextPageToken = "" := hn
      simp only [marketPagesLoop, if_pos hcond]
      rw [hacc2]
    · have hlt : i < n := Nat.lt_of_le_of_ne hi hin
      have hcond : ¬ (P i).nextPageToken = "" := hmin i hlt
      simp only [marketPagesLoop, if_neg hcond]
      exact ih (i + 1) _ hlt hacc2 (by omega)

/-- C4 (amended): whenever some request index n is the first at which
the platform signals completion — for the market adapter an
absent/empty continuation token, for the seller adapter the reported
total exactly equal to the cumulative item count — get_offer_ids
terminates there (any fuel above n suffices) and returns the
concatenation of the identifiers extracted from pages 0..n. Termination
is not guaranteed when the signal never occurs: the seller loop does
not stop when the cumulative count merely exceeds (reaches) the
reported total. -/
theorem C4_get_offer_ids_pagination :
    (∀ (P : Nat → SellerPage) (n : Nat), (∀ i, i < n → ¬ sellerStops P i) → sellerStops P n →
      ∀ fuel, n < fuel →
        seller_get_offer_ids P fuel =
          some ((sellerSeen P (n + 1)).map SellerProduct.offer_id)) ∧
    (∀ (P : Nat → MarketPage) (n : Nat), (∀ i, i < n → ¬ marketStops P i) → marketStops P n →
      ∀ fuel, n < fuel →
        market_get_offer_ids P fuel =
          some ((marketSeen P (n + 1)).map MarketEntry.shopSku)) := by
  constructor
  · intro P n hmin hn fuel hfuel
    unfold seller_get_offer_ids
    rw [sellerPagesLoop_run P n hmin hn fuel 0 [] (Nat.zero_le n) (by simp [sellerSeen])
      (by omega)]
    rfl
  · intro P n hmin hn fuel hfuel
    unfold market_get_offer_ids
    rw [marketPagesLoop_run P n hmin hn fuel 0 [] (Nat.zero_le n) (by simp [marketSeen])
      (by omega)]
    rfl

/-- A platform answering every request with a page that reports total 1
but carries two items: after the very first page the cumulative count 2
has passed the reported total 1, yet the equality test of
seller.get_offer_ids never fires. -/
def sellerStuck : Nat → SellerPage :=
  fun _ => ⟨[⟨"x"⟩, ⟨"y"⟩], 1, "t"⟩

theorem sellerStuck_loop (fuel : Nat) : ∀ (i : Nat) (acc : List SellerProduct),
    sellerPagesLoop sellerStuck fuel i acc = none := by
  induction fuel with
  | zero => intro i acc; rfl
  | succ f ih =>
    intro i acc
    have hcond : ¬ (sellerStuck i).total = (acc ++ (sellerStuck i).items).length := by
      simp [sellerStuck]
    simp only [sellerPagesLoop, if_neg hcond]
    exact ih (i + 1) _

/-- C4 counterexample: on the sellerStuck page stream the cumulative
count reaches (exceeds) the reported total after the first page, yet
seller.get_offer_ids never terminates — no amount of fuel produces a
result — refuting the claim that listing terminates for every page
sequence, stopping once the count reaches the total. -/
theorem C4_get_offer_ids_pagination_counterexample :
    (sellerStuck 0).total ≤ (sellerSeen sellerStuck 1).length ∧
    ¬ ∃ fuel, (seller_get_offer_ids sellerStuck fuel).isSome := by
  refine ⟨by decide, ?_⟩
  rintro ⟨fuel, h⟩
  rw [seller_get_offer_ids, sellerStuck_loop fuel 0 []] at h
  simp at h

/-- A platform that signals completion on its very first page, for both
adapters. -/
def sellerOnePage : Nat → SellerPage :=
  fun _ => ⟨[⟨"x"⟩], 1, ""⟩

/-- The market companion of sellerOnePage. -/
def marketOnePage : Nat → MarketPage :=
  fun _ => ⟨[⟨"y"⟩], ""⟩

/-- C4 witness: both halves of the theorem at single-page platforms. -/
theorem C4_get_offer_ids_pagination_witness :
    seller_get_offer_ids sellerOnePage 1 = some ["x"] ∧
    market_get_offer_ids marketOnePage 1 = some ["y"] := by
  constructor
  · exact (C4_get_offer_ids_pagination.1 sellerOnePage 0
      (fun i hi => absurd hi (Nat.not_lt_zero i)) (by rfl) 1 (by decide)).trans (by decide)
  · exact (C4_get_offer_ids_pagination.2 marketOnePage 0
      (fun i hi => absurd hi (Nat.not_lt_zero i)) (by rfl) 1 (by decide)).trans (by decide)

/-! ### Claims about divide (batch chunking) -/

theorem divide_pos_eq {α : Type} (lst : List α) (n : Int) (hn : 1 ≤ n) :
    divide lst n = some ((rangeStep 0 n ((lst.length + n.toNat - 1) / n.toNat)).map
      (fun i => pySlice lst i (i + n))) := by
  have h0 : pyRange 0 (lst.length : Int) n =
      some (rangeStep 0 n ((lst.length + n.toNat - 1) / n.toNat)) := by
    unfold pyRange pyRangeLen
    rw [if_neg (by omega : ¬ n = 0), if_pos (by omega : (0 : Int) < n)]
    simp
  unfold divide
  rw [h0]
  rfl

theorem chunkCount_succ (len m : Nat) (hm : 1 ≤ m) (hlen : 1 ≤ len) :
    (len + m - 1) / m = (len - m + m - 1) / m + 1 := by
  have hL : len + m - 1 = (len - 1) + m := by omega
  rw [hL, Nat.add_div_right _ (by omega)]
  rcases le_or_lt m len with h | h
  · have hR : len - m + m - 1 = len - 1 := by omega
    rw [hR]
  · have hR : len - m = 0 := by omega
    rw [hR]
    have h1 : (len - 1) / m = 0 := Nat.div_eq_of_lt (by omega)
    have h2 : (0 + m - 1) / m = 0 := Nat.div_eq_of_lt (by omega)
    rw [h1, h2]

theorem rangeStep_map_pySlice_shift {α : Type} (lst : List α) (n : Int) (hn : 1 ≤ n) :
    ∀ (k t : Nat),
      (rangeStep ((t : Int) + n) n k).map (fun i => pySlice lst i (i + n)) =
      (rangeStep (t : Int) n k).map (fun i => pySlice (lst.drop n.toNat) i (i + n)) := by
  intro k
  induction k with
  | zero => intro t; rfl
  | succ k ih =>
    intro t
    simp only [rangeStep, List.map_cons]
    refine congrArg₂ List.cons ?_ ?_
    · unfold pySlice
      have h1 : ((t : Int) + n).toNat = t + n.toNat := by omega
      have h2 : ((t : Int) + n + n - ((t : Int) + n)).toNat = n.toNat := by omega
      have h3 : ((t : Int) + n - (t : Int)).toNat = n.toNat := by omega
      rw [h1, h2, h3, Int.toNat_natCast, List.drop_drop]
      have h4 : t + n.toNat = n.toNat + t := Nat.add_comm t n.toNat
      rw [h4]
    · have ht : (t : Int) + n + n = ((t + n.toNat : Nat) : Int) + n := by
        push_cast
        omega
      rw [ht, ih (t + n.toNat)]
      have ht2 : ((t + n.toNat : Nat) : Int) = (t : Int) + n := by
        push_cast
        omega
      rw [ht2]

theorem divide_eq_chunksRec {α : Type} (n : Int) (hn : 1 ≤ n) :
    ∀ (L : Nat) (lst : List α), lst.length ≤ L →
      divide lst n = some (chunksRec (n.toNat - 1) lst) := by
  intro L
  induction L with
  | zero =>
    intro lst hl
    have h0 : lst = [] := List.eq_nil_of_length_eq_zero (by omega)
    subst h0
    rw [divide_pos_eq [] n hn]
    have hK : ((List.length ([] : List α)) + n.toNat - 1) / n.toNat = 0 :=
      Nat.div_eq_of_lt (by simp; omega)
    rw [hK]
    simp [chunksRec, rangeStep]
  | succ L ih =>
    intro lst hl
    cases lst with
    | nil =>
      rw [divide_pos_eq [] n hn]
      have hK : ((List.length ([] : List α)) + n.toNat - 1) / n.toNat = 0 :=
        Nat.div_eq_of_lt (by simp; omega)
      rw [hK]
      simp [chunksRec, rangeStep]
    | cons a rest =>
      rw [divide_pos_eq (a :: rest) n hn]
      have hm : 1 ≤ n.toNat := by omega
      have hlen : 1 ≤ (a :: rest).length := by simp
      rw [chunkCount_succ _ _ hm hlen]
      simp only [rangeStep, List.map_cons]
      have hhead : pySlice (a :: rest) 0 (0 + n) = a :: rest.take (n.toNat - 1) := by
        unfold pySlice
        have h2 : ((0 : Int) + n - 0).toNat = n.toNat := by omega
        rw [h2]
        simp only [Int.toNat_zero, List.drop_zero]
        rw [show n.toNat = n.toNat - 1 + 1 from by omega]
        simp
      have hih := ih ((a :: rest).drop n.toNat)
        (by simp only [List.length_drop]; simp at hl ⊢; omega)
      rw [divide_pos_eq _ n hn] at hih
      have hK2 : (((a :: rest).drop n.toNat).length + n.toNat - 1) / n.toNat =
          ((a :: rest).length - n.toNat + n.toNat - 1) / n.toNat := by
        rw [List.length_drop]
      rw [hK2] at hih
      have htail : (rangeStep (0 + n) n
            (((a :: rest).length - n.toNat + n.toNat - 1) / n.toNat)).map
          (fun i => pySlice (a :: rest) i (i + n)) =
          chunksRec (n.toNat - 1) ((a :: rest).drop n.toNat) := by
        have hz : (0 : Int) + n = ((0 : Nat) : Int) + n := by norm_num
        rw [hz, rangeStep_map_pySlice_shift (a :: rest) n hn _ 0]
        have hz2 : ((0 : Nat) : Int) = (0 : Int) := by norm_num
        rw [hz2]
        exact Option.some.inj hih
      rw [hhead, htail]
      have hch : chunksRec (n.toNat - 1) (a :: rest) =
          (a :: rest.take (n.toNat - 1)) :: chunksRec (n.toNat - 1) (rest.drop (n.toNat - 1)) := by
        simp [chunksRec]
      rw [hch]
      have hdr : (a :: rest).drop n.toNat = rest.drop (n.toNat - 1) := by
        rw [show n.toNat = n.toNat - 1 + 1 from by omega]
        simp
      rw [hdr]

theorem chunksRec_flatten {α : Type} (m : Nat) :
    ∀ (L : Nat) (lst : List α), lst.length ≤ L → (chunksRec m lst).flatten = lst := by
  intro L
  induction L with
  | zero =>
    intro lst hl
    have h0 : lst = [] := List.eq_nil_of_length_eq_zero (by omega)
    subst h0
    simp [chunksRec]
  | succ L ih =>
    intro lst hl
    cases lst with
    | nil => simp [chunksRec]
    | cons a rest =>
      have hch : chunksRec m (a :: rest) =
          (a :: rest.take m) :: chunksRec m (rest.drop m) := by
        simp [chunksRec]
      rw [hch, List.flatten_cons,
        ih (rest.drop m) (by simp only [List.length_drop]; simp at hl; omega)]
      simp

theorem chunksRec_length_le {α : Type} (m : Nat) :
    ∀ (L : Nat) (lst : List α), lst.length ≤ L → ∀ c ∈ chunksRec m lst, c.length ≤ m + 1 := by
  intro L
  induction L with
  | zero =>
    intro lst hl c hc
    have h0 : lst = [] := List.eq_nil_of_length_eq_zero (by omega)
    subst h0
    simp [chunksRec] at hc
  | succ L ih =>
    intro lst hl c hc
    cases lst with
    | nil => simp [chunksRec] at hc
    | cons a rest =>
      rw [show chunksRec m (a :: rest) = (a :: rest.take m) :: chunksRec m (rest.drop m)
        from by simp [chunksRec]] at hc
      rcases List.mem_cons.mp hc with rfl | hc2
      · simp only [List.length_cons, List.length_take]
        omega
      · exact ih (rest.drop m) (by simp only [List.length_drop]; simp at hl; omega) c hc2

theorem chunksRec_dropLast {α : Type} (m : Nat) :
    ∀ (L : Nat) (lst : List α), lst.length ≤ L →
      ∀ c ∈ (chunksRec m lst).dropLast, c.length = m + 1 := by
  intro L
  induction L with
  | zero =>
    intro lst hl c hc
    have h0 : lst = [] := List.eq_nil_of_length_eq_zero (by omega)
    subst h0
    simp [chunksRec] at hc
  | succ L ih =>
    intro lst hl c hc
    cases lst with
    | nil => simp [chunksRec] at hc
    | cons a rest =>
      rw [show chunksRec m (a :: rest) = (a :: rest.take m) :: chunksRec m (rest.drop m)
        from by simp [chunksRec]] at hc
      cases hcs : chunksRec m (rest.drop m) with
      | nil =>
        rw [hcs] at hc
        simp at hc
      | cons c0 cs =>
        rw [hcs, List.dropLast_cons₂] at hc
        rcases List.mem_cons.mp hc with rfl | hc2
        · have hne : rest.drop m ≠ [] := by
            intro h0
            rw [h0] at hcs
            simp [chunksRec] at hcs
          have hlen : m < rest.length := by
            by_contra hle
            exact hne (List.drop_eq_nil_iff.mpr (by omega))
          simp only [List.length_cons, List.length_take]
          omega
        · exact ih (rest.drop m) (by simp only [List.length_drop]; simp at hl; omega) c
            (by rw [hcs]; exact hc2)

/-- C6: for n ≥ 1, divide yields consecutive chunks whose concatenation
is the input, every chunk has at most n elements, only the last chunk
may be shorter than n, and divide of the empty list yields no chunks. -/
theorem C6_divide_chunks {α : Type} (lst : List α) (n : Int) (hn : 1 ≤ n) :
    ∃ chunks, divide lst n = some chunks ∧ chunks.flatten = lst ∧
      (∀ c ∈ chunks, c.length ≤ n.toNat) ∧
      (∀ c ∈ chunks.dropLast, c.length = n.toNat) ∧
      divide ([] : List α) n = some [] := by
  refine ⟨chunksRec (n.toNat - 1) lst,
    divide_eq_chunksRec n hn lst.length lst le_rfl,
    chunksRec_flatten (n.toNat - 1) lst.length lst le_rfl, ?_, ?_, ?_⟩
  · intro c hc
    have := chunksRec_length_le (n.toNat - 1) lst.length lst le_rfl c hc
    omega
  · intro c hc
    have := chunksRec_dropLast (n.toNat - 1) lst.length lst le_rfl c hc
    omega
  · have h := divide_eq_chunksRec n hn 0 ([] : List α) (by simp)
    rw [h]
    simp [chunksRec]

/-- C6 witness: the theorem at the documented example chunk([1,2,3,4,5], 2). -/
theorem C6_divide_chunks_witness :
    ∃ chunks, divide ([1, 2, 3, 4, 5] : List Int) 2 = some chunks ∧
      chunks.flatten = [1, 2, 3, 4, 5] := by
  obtain ⟨c, h1, h2, -⟩ := C6_divide_chunks ([1, 2, 3, 4, 5] : List Int) 2 (by omega)
  exact ⟨c, h1, h2⟩

/-- C10: divide only honours its chunking contract for n ≥ 1: for n < 0
it silently yields no chunks at all (so a non-empty input cannot be
recovered from the output), and for n = 0 advancing the generator
raises a ValueError, modelled as none. -/
theorem C10_divide_nonpositive {α : Type} (lst : List α) (n : Int)
    (hne : lst ≠ []) (hn : n < 0) :
    divide lst n = some [] ∧ (∀ cs, divide lst n = some cs → cs.flatten ≠ lst) ∧
    divide lst (0 : Int) = none := by
  have h1 : divide lst n = some [] := by
    unfold divide pyRange pyRangeLen
    rw [if_neg (by omega : ¬ n = 0), if_neg (by omega : ¬ (0 : Int) < n)]
    have hz : ((0 : Int) - (lst.length : Int)).toNat = 0 := by omega
    rw [hz]
    have hd : (0 + (-n).toNat - 1) / (-n).toNat = 0 := Nat.div_eq_of_lt (by omega)
    rw [hd]
    rfl
  refine ⟨h1, ?_, ?_⟩
  · intro cs hcs
    rw [h1] at hcs
    obtain rfl : ([] : List (List α)) = cs := Option.some.inj hcs
    intro hfl
    exact hne (by simpa using hfl.symm)
  · unfold divide pyRange
    rw [if_pos rfl]
    rfl

/-- C10 witness: the theorem at the list [1, 2] with n = -2 and n = 0. -/
theorem C10_divide_nonpositive_witness :
    divide ([1, 2] : List Int) (-2) = some [] ∧ divide ([1, 2] : List Int) (0 : Int) = none := by
  obtain ⟨h1, -, h3⟩ := C10_divide_nonpositive ([1, 2] : List Int) (-2) (by decide) (by decide)
  exact ⟨h1, h3⟩
